import Mathlib

/-!
Shallow embedding of the query engine of the Chaitanya Academy File Finder
(`src/utils.py`, mirrored by `src/streamlit_app.py`).  Field text is modelled
as its character sequence (`List Char`); Python strings are embedded through
`String.data` at concrete call sites.  The wall-clock duration measured by
`time.time()` is an input from the environment and is passed to `search_data`
as an explicit parameter.
-/

namespace CALF

/-- Whitespace recognized by Python's `str.strip` (restricted to the ASCII
whitespace repertoire used by this application). -/
def isPySpace (c : Char) : Bool :=
  c = ' ' || c = '\t' || c = '\n' || c = '\x0d' || c = '\x0b' || c = '\x0c'

/-- Python `str.strip()`: drop leading and trailing whitespace. -/
def pyStrip (l : List Char) : List Char :=
  ((l.dropWhile isPySpace).reverse.dropWhile isPySpace).reverse

/-- Model of Python `str.lower` on one character, restricted to the character
repertoire of this application: ASCII letters, the Latvian and Sanskrit/IAST
letters appearing in `remove_diacritics`' table, and basic Cyrillic. -/
def lowerChar (c : Char) : Char :=
  if 65 ≤ c.toNat ∧ c.toNat ≤ 90 then Char.ofNat (c.toNat + 32)
  else if 0x410 ≤ c.toNat ∧ c.toNat ≤ 0x42F then Char.ofNat (c.toNat + 32)
  else if c = 'Ё' then 'ё'
  else if c = 'Ā' then 'ā' else if c = 'Č' then 'č' else if c = 'Ē' then 'ē'
  else if c = 'Ģ' then 'ģ' else if c = 'Ī' then 'ī' else if c = 'Ķ' then 'ķ'
  else if c = 'Ļ' then 'ļ' else if c = 'Ņ' then 'ņ' else if c = 'Š' then 'š'
  else if c = 'Ū' then 'ū' else if c = 'Ž' then 'ž'
  else if c = 'Ś' then 'ś' else if c = 'Ṣ' then 'ṣ' else if c = 'Ṁ' then 'ṁ'
  else if c = 'Ḍ' then 'ḍ' else if c = 'Ṭ' then 'ṭ' else if c = 'Ṇ' then 'ṇ'
  else if c = 'Ṅ' then 'ṅ' else if c = 'Ñ' then 'ñ' else if c = 'Ṛ' then 'ṛ'
  else if c = 'Ḷ' then 'ḷ'
  else c

/-- Python `str.lower` over a whole string. -/
def lowerList (l : List Char) : List Char := l.map lowerChar

/-- Does `l` begin with `p`?  (Exact, character by character.) -/
def beginsWith : List Char → List Char → Bool
  | _, [] => true
  | [], _ :: _ => false
  | c :: cs, d :: ds => c == d && beginsWith cs ds

/-- Python's substring test `p in l` (exact). -/
def containsSub : List Char → List Char → Bool
  | [], p => beginsWith [] p
  | c :: cs, p => beginsWith (c :: cs) p || containsSub cs p

/-- Python `str.split(sep)` for a one-character separator; keeps empty pieces
exactly as Python does. -/
def splitOnChar (sep : Char) : List Char → List (List Char)
  | [] => [[]]
  | c :: cs =>
    if c = sep then [] :: splitOnChar sep cs
    else
      match splitOnChar sep cs with
      | [] => [[c]]
      | s :: ss => (c :: s) :: ss

/-- Python `str.split("//")`: split on the leftmost non-overlapping
occurrences of the two-character separator. -/
def splitOnDoubleSlash : List Char → List (List Char)
  | [] => [[]]
  | '/' :: '/' :: cs => [] :: splitOnDoubleSlash cs
  | c :: cs =>
    match splitOnDoubleSlash cs with
    | [] => [[c]]
    | s :: ss => (c :: s) :: ss

/-- Decimal digit value of a character, if any. -/
def digitVal (c : Char) : Option Nat :=
  if 48 ≤ c.toNat ∧ c.toNat ≤ 57 then some (c.toNat - 48) else none

/-- Parse a non-empty all-digit string into a number. -/
def parseDigits : List Char → Option Nat
  | [] => none
  | l => l.foldl (fun acc c => match acc, digitVal c with
      | some n, some d => some (n * 10 + d)
      | _, _ => none) (some 0)

/-- Model of Python `int(s)` on strings: optional surrounding whitespace, an
optional sign, then decimal digits; `none` models `ValueError`.  (Python's
underscore digit grouping is outside this application's data and not
modelled.) -/
def pyInt (s : List Char) : Option Int :=
  let t := pyStrip s
  match t with
  | '+' :: rest => (parseDigits rest).map Int.ofNat
  | '-' :: rest => (parseDigits rest).map (fun n => -(n : Int))
  | _ => (parseDigits t).map Int.ofNat

/-- The fixed diacritics table of `TextProcessor.remove_diacritics`
(`src/utils.py` lines 23-31): Latvian letters, their uppercase variants, and
Sanskrit/IAST letters. -/
def diacritics_map : List (Char × Char) :=
  [('ā', 'a'), ('č', 'c'), ('ē', 'e'), ('ģ', 'g'), ('ī', 'i'), ('ķ', 'k'),
   ('ļ', 'l'), ('ņ', 'n'), ('š', 's'), ('ū', 'u'), ('ž', 'z'),
   ('Ā', 'A'), ('Č', 'C'), ('Ē', 'E'), ('Ģ', 'G'), ('Ī', 'I'), ('Ķ', 'K'),
   ('Ļ', 'L'), ('Ņ', 'N'), ('Š', 'S'), ('Ū', 'U'), ('Ž', 'Z'),
   ('ś', 's'), ('ṣ', 's'), ('ṁ', 'm'), ('ḍ', 'd'), ('ṭ', 't'),
   ('ṇ', 'n'), ('ṅ', 'n'), ('ñ', 'n'), ('ṛ', 'r'), ('ḷ', 'l')]

/-- First-match lookup in an association list of characters. -/
def lookupPair : List (Char × Char) → Char → Option Char
  | [], _ => none
  | (k, v) :: rest, c => if c = k then some v else lookupPair rest c

/-- The substitution performed on one character by the diacritics table. -/
def diaSub (c : Char) : Char :=
  match lookupPair diacritics_map c with
  | some r => r
  | none => c

/-- `TextProcessor.remove_diacritics`: the Python loop of
`result.replace(char, replacement)` over the table.  Because the table's keys
are distinct single characters and no replacement character is itself a key,
the sequential replacements are exactly a single character-by-character
substitution. -/
def remove_diacritics (l : List Char) : List Char := l.map diaSub

/-- The fixed Latin-to-Cyrillic table of `TextProcessor.transliterate`
(`src/utils.py` lines 47-54), keys and values as character sequences. -/
def transliteration_map : List (List Char × List Char) :=
  [(['a'], ['а']), (['b'], ['б']), (['v'], ['в']), (['g'], ['г']), (['d'], ['д']),
   (['e'], ['е']), (['y', 'o'], ['ё']), (['z', 'h'], ['ж']), (['z'], ['з']), (['i'], ['и']),
   (['y'], ['й']), (['k'], ['к']), (['l'], ['л']), (['m'], ['м']), (['n'], ['н']),
   (['o'], ['о']), (['p'], ['п']), (['r'], ['р']), (['s'], ['с']), (['t'], ['т']),
   (['u'], ['у']), (['f'], ['ф']), (['h'], ['х']), (['t', 's'], ['ц']), (['c', 'h'], ['ч']),
   (['s', 'h'], ['ш']), (['s', 'c', 'h'], ['щ']), (['y', 'u'], ['ю']), (['y', 'a'], ['я']),
   (['j'], ['д', 'ж'])]

/-- Dictionary lookup `transliteration_map[substr]` (keys are distinct, so
first-match lookup coincides with Python's dict lookup). -/
def translitLookup : List (List Char × List Char) → List Char → Option (List Char)
  | [], _ => none
  | (k, v) :: rest, s => if s = k then some v else translitLookup rest s

/-- The scanning loop of `TextProcessor.transliterate`: at each position try
the 3-character substring, then 2, then 1 (each only when that many
characters remain, mirroring `i + length <= len`); on a hit emit the mapped
output and advance by the matched length, otherwise emit the character
unchanged and advance by one. -/
def translitGo : List Char → List Char
  | [] => []
  | [c1] =>
    match translitLookup transliteration_map [c1] with
    | some out => out
    | none => [c1]
  | [c1, c2] =>
    match translitLookup transliteration_map [c1, c2] with
    | some out => out
    | none =>
      match translitLookup transliteration_map [c1] with
      | some out => out ++ translitGo [c2]
      | none => c1 :: translitGo [c2]
  | c1 :: c2 :: c3 :: rest =>
    match translitLookup transliteration_map [c1, c2, c3] with
    | some out => out ++ translitGo rest
    | none =>
      match translitLookup transliteration_map [c1, c2] with
      | some out => out ++ translitGo (c3 :: rest)
      | none =>
        match translitLookup transliteration_map [c1] with
        | some out => out ++ translitGo (c2 :: c3 :: rest)
        | none => c1 :: translitGo (c2 :: c3 :: rest)

/-- `TextProcessor.transliterate`: lower-case the input, then run the
greedy scanning loop. -/
def transliterate (w : List Char) : List Char := translitGo (lowerList w)

/-- `TextProcessor.split_search_terms`: lower-case, split on `;`, strip each
segment, drop blank segments. -/
def split_search_terms (q : List Char) : List (List Char) :=
  ((splitOnChar ';' (lowerList q)).map pyStrip).filter (fun t => !t.isEmpty)

/-- The OR pieces of one term: split on `//`, strip, drop blanks
(`[t.strip() for t in term.split('//') if t.strip()]`). -/
def orPieces (term : List Char) : List (List Char) :=
  ((splitOnDoubleSlash term).map pyStrip).filter (fun t => !t.isEmpty)

/-- A catalog row.  Field names follow the spreadsheet columns
(`Nr.`, `Original file name`, `Lang.`, `Dwnld.` are rendered as Lean-legal
identifiers); every field is text. -/
structure Record where
  Date : List Char
  «Type» : List Char
  Subtype : List Char
  Nr : List Char
  OriginalFileName : List Char
  Country : List Char
  Lang : List Char
  Links : List Char
  Dwnld : List Char
  Length : List Char
  Source : List Char
deriving DecidableEq, Repr

/-- The searchable columns of `_search_single_term`, in source order
(`Source` is absent: it is only reachable via `@source`). -/
def searchFields (r : Record) : List (List Char) :=
  [r.Date, r.«Type», r.Subtype, r.Nr, r.OriginalFileName,
   r.Country, r.Lang, r.Links, r.Dwnld, r.Length]

/-- `DateProcessor.parse_date_for_sorting`: blank or `unknown` dates map to
the `(9999, 99, 99)` sentinel; otherwise the stripped string is split on `.`
into exactly three parts, each either the literal `xx` (mapped to the slot's
sentinel) or a parsed integer; any failure falls back to the sentinel. -/
def parse_date_for_sorting (date : List Char) : Int × Int × Int :=
  if date.isEmpty || lowerList date = ['u', 'n', 'k', 'n', 'o', 'w', 'n'] then
    (9999, 99, 99)
  else
    let d := pyStrip date
    if d.contains '.' then
      let parts := splitOnChar '.' d
      if parts.length = 3 then
        let comp (p : List Char) (sentinel : Int) : Option Int :=
          if p = ['x', 'x'] then some sentinel else pyInt p
        match comp (parts.getD 0 []) 9999, comp (parts.getD 1 []) 99,
              comp (parts.getD 2 []) 99 with
        | some y, some m, some dd => (y, m, dd)
        | _, _, _ => (9999, 99, 99)
      else (9999, 99, 99)
    else (9999, 99, 99)

/-- Lexicographic strict order on date sort keys, as Python compares
3-tuples. -/
def dateKeyLt (a b : Int × Int × Int) : Bool :=
  decide (a.1 < b.1) ||
    (decide (a.1 = b.1) &&
      (decide (a.2.1 < b.2.1) ||
        (decide (a.2.1 = b.2.1) && decide (a.2.2 < b.2.2))))

/-- Insert an element (earlier in the original order than everything in the
list) into a descending-sorted list, before the first strictly smaller key:
on equal keys the earlier element stays first, which is exactly the
stability guarantee of Python's `sorted(..., reverse=True)`. -/
def insertDesc (key : Record → Int × Int × Int) (x : Record) :
    List Record → List Record
  | [] => [x]
  | y :: ys =>
    if dateKeyLt (key x) (key y) then y :: insertDesc key x ys
    else x :: y :: ys

/-- Stable descending sort by key: the unique stable sort, hence the result
of `sorted(range(len(keys)), key=..., reverse=True)` followed by
`df.iloc[...]`. -/
def sortDescBy (key : Record → Int × Int × Int) : List Record → List Record
  | [] => []
  | x :: xs => insertDesc key x (sortDescBy key xs)

/-- `SearchEngine._sort_by_date`. -/
def sort_by_date (df : List Record) : List Record :=
  sortDescBy (fun r => parse_date_for_sorting r.Date) df

/-- `SearchEngine._search_single_term`: normalize the term (diacritics
stripped from its lower-cased form) and its transliteration, then test
substring containment against each searchable column lower-cased and
diacritic-stripped. -/
def search_single_term (t : List Char) (r : Record) : Bool :=
  let normalized_term := remove_diacritics (lowerList t)
  let transliterated_term := transliterate normalized_term
  (searchFields r).any (fun f =>
    let nf := remove_diacritics (lowerList f)
    containsSub nf normalized_term || containsSub nf transliterated_term)

/-- The `@`-terms among the parsed search terms. -/
def sourceTermsOf (terms : List (List Char)) : List (List Char) :=
  terms.filter (fun t => t.headD ' ' = '@')

/-- The non-`@` terms among the parsed search terms. -/
def otherTermsOf (terms : List (List Char)) : List (List Char) :=
  terms.filter (fun t => !(t.headD ' ' = '@'))

/-- The source-filter mask of `search_data`: with no `@`-terms every record
passes; otherwise a record passes iff its lower-cased `Source` field contains
some source term (`@` stripped, lower-cased) as a substring. -/
def passes_source (sourceTerms : List (List Char)) (r : Record) : Bool :=
  if sourceTerms.isEmpty then true
  else sourceTerms.any (fun st =>
    containsSub (lowerList r.Source) (lowerList st.tail))

/-- The content mask of `search_data`: every non-`@` term's OR-group must
contain at least one matching piece. -/
def passes_content (otherTerms : List (List Char)) (r : Record) : Bool :=
  otherTerms.all (fun term =>
    (orPieces term).any (fun ot => search_single_term ot r))

/-- `SearchEngine.search_data`.  `elapsed` is the wall-clock duration the
environment measures for the non-trivial branch; the code returns the
literal `0.0` on the trivial branch.  Result: (rows, elapsed seconds,
total count). -/
def search_data (elapsed : ℚ) (q : List Char) (df : List Record) :
    List Record × ℚ × Nat :=
  if df.isEmpty || (pyStrip q).isEmpty then ([], 0, 0)
  else
    let terms := split_search_terms q
    let filtered := df.filter (fun r =>
      passes_source (sourceTermsOf terms) r && passes_content (otherTermsOf terms) r)
    let sorted := if filtered.isEmpty then filtered else sort_by_date filtered
    (sorted, elapsed, sorted.length)

/-- The token whose presence the diacritic guard tests
(`'<span' not in result`). -/
def spanTok : List Char := "<span".data

/-- Opening markup of an `Exact` (yellow) wrap. -/
def yellowOpen : List Char :=
  "<span style=\"background-color: yellow; padding: 2px 4px; border-radius: 3px;\">".data

/-- Opening markup of a `Diacritic` (light blue) wrap. -/
def blueOpen : List Char :=
  "<span style=\"background-color: lightblue; padding: 2px 4px; border-radius: 3px;\">".data

/-- Opening markup of a `Transliterated` (orange) wrap. -/
def orangeOpen : List Char :=
  "<span style=\"background-color: orange; padding: 2px 4px; border-radius: 3px;\">".data

/-- Opening markup of a `Source` (green) wrap. -/
def greenOpen : List Char :=
  "<span style=\"background-color: green; color: white; padding: 2px 4px; border-radius: 3px;\">".data

/-- Closing markup of every wrap. -/
def spanClose : List Char := "</span>".data

/-- `re.sub` with an empty literal pattern: the replacement is inserted at
every position, before each character and at the end. -/
def subWrapEmpty (pre post : List Char) : List Char → List Char
  | [] => pre ++ post
  | c :: cs => pre ++ post ++ c :: subWrapEmpty pre post cs

/-- `re.sub` with a non-empty literal pattern under `IGNORECASE`: scan left
to right; at a case-insensitive occurrence of `pat` emit
`pre ++ occurrence ++ post` and continue after it, otherwise copy one
character. -/
def subWrapGo (pre post pat : List Char) (text : List Char) : List Char :=
  match text with
  | [] => []
  | c :: cs =>
    if 0 < pat.length ∧ lowerList ((c :: cs).take pat.length) = lowerList pat then
      pre ++ (c :: cs).take pat.length ++ post ++
        subWrapGo pre post pat ((c :: cs).drop pat.length)
    else c :: subWrapGo pre post pat cs
termination_by text.length
decreasing_by
  · rename_i h
    simp only [List.length_drop, List.length_cons]
    omega
  · simp

/-- `pattern.sub(pre + match + post, text)` for the literal, case-insensitive
patterns this code builds with `re.escape`. -/
def pySub (pre post pat text : List Char) : List Char :=
  if pat.isEmpty then subWrapEmpty pre post text else subWrapGo pre post pat text

/-- The character class `[a-zA-Z0-9]` of the transliteration guard. -/
def isAsciiAlnum (c : Char) : Bool :=
  (97 ≤ c.toNat && c.toNat ≤ 122) || (65 ≤ c.toNat && c.toNat ≤ 90) ||
    (48 ≤ c.toNat && c.toNat ≤ 57)

/-- The condition under which the `Diacritic` wrap is performed for one
sub-term against the text produced so far: diacritics were actually present
(`normalized != or_term.lower()`) and `'<span' not in result`. -/
def diaFires (res ot : List Char) : Bool :=
  decide (remove_diacritics (lowerList ot) ≠ lowerList ot) &&
    !containsSub res spanTok

/-- Processing of one `//`-piece inside `highlight_search_terms`: the
`Exact` wrap, then the guarded `Diacritic` wrap, then the guarded
`Transliterated` wrap. -/
def highlightOrTerm (res ot : List Char) : List Char :=
  let normalized_term := remove_diacritics (lowerList ot)
  let res1 := pySub yellowOpen spanClose ot res
  let res2 := if diaFires res1 ot then pySub blueOpen spanClose normalized_term res1
              else res1
  let transliterated_term := transliterate normalized_term
  if decide (transliterated_term ≠ normalized_term) &&
      !(transliterated_term.any isAsciiAlnum) then
    pySub orangeOpen spanClose transliterated_term res2
  else res2

/-- `highlightOrTerm` with the `Diacritic` step removed: the observer used
to state that no `Diacritic` wrap is applied. -/
def highlightOrTermNoDia (res ot : List Char) : List Char :=
  let normalized_term := remove_diacritics (lowerList ot)
  let res1 := pySub yellowOpen spanClose ot res
  let transliterated_term := transliterate normalized_term
  if decide (transliterated_term ≠ normalized_term) &&
      !(transliterated_term.any isAsciiAlnum) then
    pySub orangeOpen spanClose transliterated_term res1
  else res1

/-- Processing of one term of the provided term list: blank terms are
skipped, `@`-terms get the `Source` wrap, other terms are split on `//` and
each piece is processed in order. -/
def highlightTerm (res term : List Char) : List Char :=
  let t := pyStrip term
  if t.isEmpty then res
  else if t.headD ' ' = '@' then pySub greenOpen spanClose (lowerList t.tail) res
  else (orPieces t).foldl highlightOrTerm res

/-- `highlightTerm` built on `highlightOrTermNoDia`. -/
def highlightTermNoDia (res term : List Char) : List Char :=
  let t := pyStrip term
  if t.isEmpty then res
  else if t.headD ' ' = '@' then pySub greenOpen spanClose (lowerList t.tail) res
  else (orPieces t).foldl highlightOrTermNoDia res

/-- `HighlightEngine.highlight_search_terms` (text inputs; `pd.isna` is
vacuous on text). -/
def highlight_search_terms (text : List Char) (terms : List (List Char)) :
    List Char :=
  if terms.isEmpty then text else terms.foldl highlightTerm text

/-- Claim C2's phrasing of single-term matching: identical to
`search_single_term` except that the field text is only lower-cased, not
diacritic-stripped, before the containment test.  Stated from the claim's
words for comparison with the source's `search_single_term`. -/
def claim_single_term_match (t : List Char) (r : Record) : Bool :=
  let normalized_term := remove_diacritics (lowerList t)
  let transliterated_term := transliterate normalized_term
  (searchFields r).any (fun f =>
    containsSub (lowerList f) normalized_term ||
      containsSub (lowerList f) transliterated_term)

/-- One step of the spec's description of transliteration (claim C7): at the
current position try the 3-character substring, then 2, then 1, against the
table; on the first hit return the mapped output and the matched length;
with no hit return the single character unchanged and length one. -/
def translitStep (l : List Char) : List Char × Nat :=
  if 3 ≤ l.length ∧ (translitLookup transliteration_map (l.take 3)).isSome then
    ((translitLookup transliteration_map (l.take 3)).getD [], 3)
  else if 2 ≤ l.length ∧ (translitLookup transliteration_map (l.take 2)).isSome then
    ((translitLookup transliteration_map (l.take 2)).getD [], 2)
  else if 1 ≤ l.length ∧ (translitLookup transliteration_map (l.take 1)).isSome then
    ((translitLookup transliteration_map (l.take 1)).getD [], 1)
  else (l.take 1, 1)

/-- The spec's description of the whole scan (claim C7): repeat
`translitStep` from left to right, emitting the outputs. -/
def translitScan (l : List Char) : List Char :=
  match l with
  | [] => []
  | c :: cs =>
    (translitStep (c :: cs)).1 ++ translitScan ((c :: cs).drop (translitStep (c :: cs)).2)
termination_by l.length
decreasing_by
  have h : 0 < (translitStep (c :: cs)).2 := by
    unfold translitStep
    repeat' split
    all_goals omega
  simp only [List.length_drop, List.length_cons]
  omega

/-- Helper building a record whose remaining fields are blank. -/
def mkRecord (date ofn src : String) : Record :=
  { Date := date.data, «Type» := [], Subtype := [], Nr := [],
    OriginalFileName := ofn.data, Country := [], Lang := [], Links := [],
    Dwnld := [], Length := [], Source := src.data }

/-- R1 of the AND/OR scenario. -/
def R1 : Record := mkRecord "" "Guru Tattva" ""

/-- R2 of the AND/OR scenario. -/
def R2 : Record := mkRecord "" "Krishna Prema" ""

/-- R3 of the AND/OR scenario. -/
def R3 : Record := mkRecord "" "Guru Krishna" ""

/-- Record dated `2024.01.15` of the date-ranking scenario. -/
def D0115 : Record := mkRecord "2024.01.15" "guru" ""

/-- Record dated `2024.xx.xx` of the date-ranking scenario. -/
def Dxx : Record := mkRecord "2024.xx.xx" "guru" ""

/-- Record dated `unknown` of the date-ranking scenario. -/
def Dunk : Record := mkRecord "unknown" "guru" ""

/-- Record dated `2023.12.31` of the date-ranking scenario. -/
def D1231 : Record := mkRecord "2023.12.31" "guru" ""

/-- The record of the diacritic-equivalence scenario. -/
def RSri : Record := mkRecord "" "Šrī Gurudeva" ""

/-- C1 (code behavior at the claim's scenario): on four records dated
`2024.01.15`, `2024.xx.xx`, `unknown`, `2023.12.31`, all matched by the
query `guru`, the search's date ranking returns them in the order
`unknown`, `2024.xx.xx`, `2024.01.15`, `2023.12.31`: the plain descending
sort places the `(9999, 99, 99)` sentinel first and ranks `2024.xx.xx`
above `2024.01.15`, contradicting the order `2024.01.15`, `2024.xx.xx`,
`2023.12.31`, `unknown` stated by the claim, by the spec, and by the
code's own comment `Put unknown dates last`. -/
theorem date_ranking_puts_unknown_first : ∀ e : ℚ,
    (search_data e "guru".data [D0115, Dxx, Dunk, D1231]).1 =
      [Dunk, Dxx, D0115, D1231] :=
  fun _ => rfl

/-- C2 (counterexample): for the term `sri` and a record whose
`OriginalFileName` is `Šrī Gurudeva`, the code's matcher succeeds while the
claim's formula — which lower-cases the field but does not strip its
diacritics — fails, so the claimed equivalence is false at this input. -/
theorem single_term_claim_counterexample :
    search_single_term "sri".data RSri = true ∧
      claim_single_term_match "sri".data RSri = false := by
  constructor
  · decide
  · decide

/-- C2 (amended): a content term `t` matches a record iff some searchable
field's text, lower-cased and diacritic-stripped, contains
`remove_diacritics (lower t)` or its transliteration as a substring. -/
theorem single_term_match_iff : ∀ (t : List Char) (r : Record),
    search_single_term t r = true ↔
      ∃ f ∈ searchFields r,
        (containsSub (remove_diacritics (lowerList f))
            (remove_diacritics (lowerList t)) = true ∨
          containsSub (remove_diacritics (lowerList f))
            (transliterate (remove_diacritics (lowerList t))) = true) := by
  intro t r
  simp [search_single_term, List.any_eq_true, Bool.or_eq_true]

/-- C3: a query that is blank after trimming yields the empty result list,
elapsed time 0 and total count 0, on every dataset and whatever duration the
environment would have measured. -/
theorem blank_query_yields_nothing : ∀ (e : ℚ) (q : List Char) (D : List Record),
    (pyStrip q).isEmpty = true → search_data e q D = ([], 0, 0) := by
  intro e q D h
  simp [search_data, h]

/-- Witness for C3 at a concrete whitespace-only query. -/
theorem blank_query_yields_nothing_witness :
    search_data 5 "  ".data [R1] = ([], 0, 0) :=
  blank_query_yields_nothing 5 "  ".data [R1] (by decide)

/-- C4: on the three-record dataset of the claim, semicolon-separated terms
are ANDed — `guru;krishna` returns exactly R3 — while `//`-separated terms
are ORed — `guru // krishna` returns R1, R2 and R3. -/
theorem and_or_semantics : ∀ e : ℚ,
    (search_data e "guru;krishna".data [R1, R2, R3]).1 = [R3] ∧
      (search_data e "guru // krishna".data [R1, R2, R3]).1 = [R1, R2, R3] :=
  fun _ => ⟨rfl, rfl⟩

/-- C6: the record whose `OriginalFileName` is `Šrī Gurudeva` is returned
both for the query `sri` (diacritics stripped on both sides) and for the
query `šrī` (the exact accented form). -/
theorem diacritic_equivalence : ∀ e : ℚ,
    (search_data e "sri".data [RSri]).1 = [RSri] ∧
      (search_data e "šrī".data [RSri]).1 = [RSri] :=
  fun _ => ⟨rfl, rfl⟩

/-- A successful first-match lookup returns a pair of the table. -/
theorem lookupPair_mem : ∀ (m : List (Char × Char)) (c r : Char),
    lookupPair m c = some r → (c, r) ∈ m := by
  intro m
  induction m with
  | nil => intro c r h; exact absurd h (by simp [lookupPair])
  | cons p rest ih =>
    obtain ⟨k, v⟩ := p
    intro c r h
    rw [lookupPair] at h
    by_cases hc : c = k
    · rw [if_pos hc] at h
      injection h with hv
      subst hc
      subst hv
      exact List.mem_cons_self _ _
    · rw [if_neg hc] at h
      exact List.mem_cons_of_mem _ (ih c r h)

/-- No replacement character of the diacritics table is itself a key. -/
theorem diacritics_values_not_keys :
    ∀ p ∈ diacritics_map, lookupPair diacritics_map p.2 = none := by
  decide

/-- The per-character substitution of the diacritics table is idempotent. -/
theorem diaSub_idem (c : Char) : diaSub (diaSub c) = diaSub c := by
  cases h : lookupPair diacritics_map c with
  | none =>
    have hc : diaSub c = c := by unfold diaSub; rw [h]
    rw [hc, hc]
  | some r =>
    have hc : diaSub c = r := by unfold diaSub; rw [h]
    have hr : lookupPair diacritics_map r = none :=
      diacritics_values_not_keys (c, r) (lookupPair_mem _ _ _ h)
    have : diaSub r = r := by unfold diaSub; rw [hr]
    rw [hc, this]

/-- C10: `remove_diacritics` is idempotent and length-preserving. -/
theorem remove_diacritics_idem_length : ∀ s : List Char,
    remove_diacritics (remove_diacritics s) = remove_diacritics s ∧
      (remove_diacritics s).length = s.length := by
  intro s
  constructor
  · unfold remove_diacritics
    rw [List.map_map]
    exact List.map_congr_left (fun c _ => diaSub_idem c)
  · exact List.length_map s diaSub

/-- Inserting into a descending-sorted list yields a permutation of the
element consed onto the list. -/
theorem insertDesc_perm (key : Record → Int × Int × Int) (x : Record) :
    ∀ l : List Record, List.Perm (insertDesc key x l) (x :: l) := by
  intro l
  induction l with
  | nil => exact List.Perm.refl _
  | cons y ys ih =>
    by_cases h : dateKeyLt (key x) (key y) = true
    · rw [insertDesc, if_pos h]
      exact (ih.cons y).trans (List.Perm.swap x y ys)
    · rw [insertDesc, if_neg h]

/-- The stable descending sort permutes its input. -/
theorem sortDescBy_perm (key : Record → Int × Int × Int) :
    ∀ l : List Record, List.Perm (sortDescBy key l) l := by
  intro l
  induction l with
  | nil => exact List.Perm.refl _
  | cons x xs ih =>
    rw [sortDescBy]
    exact (insertDesc_perm key x (sortDescBy key xs)).trans (ih.cons x)

/-- Membership is preserved by the date sort. -/
theorem mem_sort_by_date {r : Record} {l : List Record} :
    r ∈ sort_by_date l ↔ r ∈ l :=
  (sortDescBy_perm (fun r => parse_date_for_sorting r.Date) l).mem_iff

/-- C5: with at least one `@source` term, a record passes source filtering
iff its lower-cased `Source` field contains some source term (the token with
`@` stripped, lower-cased) as a substring; in particular the query
`@ChaitanyaAcademy` returns exactly the records of the dataset whose
`Source` contains `chaitanyaacademy` case-insensitively, regardless of every
other field. -/
theorem source_filter_iff :
    (∀ (ST : List (List Char)) (r : Record), ST ≠ [] →
      (passes_source ST r = true ↔
        ∃ s ∈ ST, containsSub (lowerList r.Source) (lowerList s.tail) = true)) ∧
    (∀ (e : ℚ) (D : List Record) (r : Record),
      r ∈ (search_data e "@ChaitanyaAcademy".data D).1 ↔
        r ∈ D ∧ containsSub (lowerList r.Source) "chaitanyaacademy".data = true) := by
  constructor
  · intro ST r hne
    cases ST with
    | nil => exact absurd rfl hne
    | cons s ss =>
      simp [passes_source, List.any_eq_true]
  · intro e D r
    cases D with
    | nil => simp [search_data]
    | cons d ds =>
      have hterms : split_search_terms "@ChaitanyaAcademy".data =
          ["@chaitanyaacademy".data] := by decide
      have hsrc : sourceTermsOf ["@chaitanyaacademy".data] =
          ["@chaitanyaacademy".data] := by decide
      have hoth : otherTermsOf ["@chaitanyaacademy".data] = [] := by decide
      have hlow : lowerList (List.tail "@chaitanyaacademy".data) =
          "chaitanyaacademy".data := by decide
      have hblank : (pyStrip "@ChaitanyaAcademy".data).isEmpty = false := by decide
      have hpred : ∀ x : Record,
          (passes_source (sourceTermsOf (split_search_terms "@ChaitanyaAcademy".data)) x &&
            passes_content (otherTermsOf (split_search_terms "@ChaitanyaAcademy".data)) x) =
          containsSub (lowerList x.Source) "chaitanyaacademy".data := by
        intro x
        rw [hterms, hsrc, hoth]
        simp [passes_source, passes_content, hlow]
        congr 1
      rw [search_data]
      rw [if_neg (by simp [hblank])]
      simp only [hpred]
      by_cases hf : ((d :: ds).filter
          (fun x => containsSub (lowerList x.Source) "chaitanyaacademy".data)).isEmpty
      · rw [if_pos hf]
        rw [List.isEmpty_iff] at hf
        constructor
        · intro hr
          rw [hf] at hr
          exact absurd hr (List.not_mem_nil r)
        · intro ⟨hrD, hrS⟩
          have : r ∈ (d :: ds).filter
              (fun x => containsSub (lowerList x.Source) "chaitanyaacademy".data) :=
            List.mem_filter.mpr ⟨hrD, hrS⟩
          rw [hf] at this
          exact absurd this (List.not_mem_nil r)
      · rw [if_neg hf]
        unfold sort_by_date
        rw [(sortDescBy_perm _ _).mem_iff]
        rw [List.mem_filter]

/-- Witness for C5's non-emptiness hypothesis at a concrete source-term list
and record. -/
theorem source_filter_iff_witness :
    passes_source ["@chaitanyaacademy".data] (mkRecord "" "x" "ChaitanyaAcademyLive") = true ↔
      ∃ s ∈ [("@chaitanyaacademy".data : List Char)],
        containsSub (lowerList (mkRecord "" "x" "ChaitanyaAcademyLive").Source)
          (lowerList s.tail) = true :=
  source_filter_iff.1 ["@chaitanyaacademy".data]
    (mkRecord "" "x" "ChaitanyaAcademyLive") (by decide)

/-- The code's scanning loop computes exactly the spec's step-by-step scan. -/
theorem translitGo_eq_translitScan (l : List Char) : translitGo l = translitScan l := by
  induction l using translitGo.induct with
  | case1 => simp [translitGo, translitScan]
  | case2 c1 out h =>
    simp [translitGo, translitScan, translitStep, h]
  | case3 c1 h =>
    simp [translitGo, translitScan, translitStep, h]
  | case4 c1 c2 out h =>
    simp [translitGo, translitScan, translitStep, h]
  | case5 c1 c2 h2 out h1 ih =>
    simp [translitGo, translitScan, translitStep, h2, h1, ih]
    cases hc : translitLookup transliteration_map [c2] <;>
      simp [hc, translitScan]
  | case6 c1 c2 h2 h1 ih =>
    simp [translitGo, translitScan, translitStep, h2, h1, ih]
    cases hc : translitLookup transliteration_map [c2] <;>
      simp [hc, translitScan]
  | case7 c1 c2 c3 rest out h3 ih =>
    simp [translitGo, translitScan, translitStep, h3, ih, Nat.le_add_left]
  | case8 c1 c2 c3 rest h3 out h2 ih =>
    simp [translitGo, translitScan, translitStep, h3, h2, ih, Nat.le_add_left]
  | case9 c1 c2 c3 rest h3 h2 out h1 ih =>
    simp [translitGo, translitScan, translitStep, h3, h2, h1, ih, Nat.le_add_left]
  | case10 c1 c2 c3 rest h3 h2 h1 ih =>
    simp [translitGo, translitScan, translitStep, h3, h2, h1, ih, Nat.le_add_left]

/-- C7: `transliterate` lower-cases its input and then performs exactly the
greedy longest-prefix-first scan described by the spec (3, then 2, then 1
characters, advancing by the matched length, copying unmatched characters);
in particular `sch` maps to `щ` and `zh` to `ж`. -/
theorem transliterate_greedy_scan :
    (∀ w : List Char, transliterate w = translitScan (lowerList w)) ∧
      transliterate "sch".data = "щ".data ∧ transliterate "zh".data = "ж".data := by
  refine ⟨fun w => ?_, by decide, by decide⟩
  unfold transliterate
  exact translitGo_eq_translitScan (lowerList w)

/-- Beginning-with is preserved by appending on the right. -/
theorem beginsWith_append {a p : List Char} (b : List Char)
    (h : beginsWith a p = true) : beginsWith (a ++ b) p = true := by
  induction p generalizing a with
  | nil => simp [beginsWith]
  | cons d ds ih =>
    cases a with
    | nil => exact absurd h (by simp [beginsWith])
    | cons c cs =>
      simp only [beginsWith, Bool.and_eq_true] at h
      simp only [List.cons_append, beginsWith, Bool.and_eq_true]
      exact ⟨h.1, ih h.2⟩

/-- A list that begins with `p` contains `p`. -/
theorem containsSub_of_beginsWith {l p : List Char}
    (h : beginsWith l p = true) : containsSub l p = true := by
  cases l with
  | nil => simpa [containsSub] using h
  | cons c cs => simp [containsSub, h]

/-- Containment is preserved by consing on the left. -/
theorem containsSub_cons {cs p : List Char} (c : Char)
    (h : containsSub cs p = true) : containsSub (c :: cs) p = true := by
  simp [containsSub, h]

/-- One pass of literal substitution either leaves the text unchanged or
leaves a text containing `<span` (the inserted opening markup begins with
it). -/
theorem subWrapGo_eq_or_contains (pre post pat : List Char)
    (hpre : beginsWith pre spanTok = true) :
    ∀ text, subWrapGo pre post pat text = text ∨
      containsSub (subWrapGo pre post pat text) spanTok = true := by
  suffices h : ∀ (n : Nat) (text : List Char), text.length ≤ n →
      subWrapGo pre post pat text = text ∨
        containsSub (subWrapGo pre post pat text) spanTok = true by
    intro text
    exact h text.length text le_rfl
  intro n
  induction n with
  | zero =>
    intro text ht
    have : text = [] := List.eq_nil_of_length_eq_zero (Nat.le_zero.mp ht)
    subst this
    left
    simp [subWrapGo]
  | succ n ih =>
    intro text ht
    cases text with
    | nil => left; simp [subWrapGo]
    | cons c cs =>
      rw [subWrapGo]
      by_cases hc : 0 < pat.length ∧
          lowerList ((c :: cs).take pat.length) = lowerList pat
      · rw [if_pos hc]
        right
        exact containsSub_of_beginsWith
          (beginsWith_append _ (beginsWith_append _ (beginsWith_append _ hpre)))
      · rw [if_neg hc]
        rcases ih cs (by simp at ht; omega) with h | h
        · left; rw [h]
        · right; exact containsSub_cons c h

/-- The literal `re.sub` model either leaves the text unchanged or leaves a
text containing `<span`, whenever the inserted opening markup begins with
`<span`. -/
theorem pySub_eq_or_contains (pre post pat : List Char)
    (hpre : beginsWith pre spanTok = true) :
    ∀ text, pySub pre post pat text = text ∨
      containsSub (pySub pre post pat text) spanTok = true := by
  intro text
  unfold pySub
  by_cases hp : pat.isEmpty = true
  · rw [if_pos hp]
    right
    cases text with
    | nil =>
      simp only [subWrapEmpty]
      exact containsSub_of_beginsWith (beginsWith_append _ hpre)
    | cons c cs =>
      simp only [subWrapEmpty]
      exact containsSub_of_beginsWith
        (beginsWith_append _ (beginsWith_append _ hpre))
  · rw [if_neg hp]
    exact subWrapGo_eq_or_contains pre post pat hpre text

/-- A text containing `<span` still contains it after any substitution whose
inserted markup begins with `<span`. -/
theorem containsSub_pySub (pre post pat text : List Char)
    (hpre : beginsWith pre spanTok = true)
    (h : containsSub text spanTok = true) :
    containsSub (pySub pre post pat text) spanTok = true := by
  rcases pySub_eq_or_contains pre post pat hpre text with he | hc
  · rw [he]; exact h
  · exact hc

/-- The yellow opening markup begins with `<span`. -/
theorem yellow_begins : beginsWith yellowOpen spanTok = true := by decide

/-- The light-blue opening markup begins with `<span`. -/
theorem blue_begins : beginsWith blueOpen spanTok = true := by decide

/-- The orange opening markup begins with `<span`. -/
theorem orange_begins : beginsWith orangeOpen spanTok = true := by decide

/-- The green opening markup begins with `<span`. -/
theorem green_begins : beginsWith greenOpen spanTok = true := by decide

/-- Once the running text contains `<span`, processing one `//`-piece never
performs the `Diacritic` wrap (it coincides with the no-diacritic variant)
and preserves the containment. -/
theorem highlightOrTerm_of_contains (res ot : List Char)
    (h : containsSub res spanTok = true) :
    highlightOrTerm res ot = highlightOrTermNoDia res ot ∧
      containsSub (highlightOrTerm res ot) spanTok = true := by
  have h1 : containsSub (pySub yellowOpen spanClose ot res) spanTok = true :=
    containsSub_pySub _ _ _ _ yellow_begins h
  have hdf : diaFires (pySub yellowOpen spanClose ot res) ot = false := by
    unfold diaFires
    rw [h1]
    simp
  constructor
  · simp only [highlightOrTerm, highlightOrTermNoDia, hdf]
    simp
  · simp only [highlightOrTerm, hdf]
    by_cases ho : (decide (transliterate (remove_diacritics (lowerList ot)) ≠
        remove_diacritics (lowerList ot)) &&
        !((transliterate (remove_diacritics (lowerList ot))).any isAsciiAlnum)) = true
    · simp only [ho, Bool.false_eq_true, if_false, if_true]
      exact containsSub_pySub _ _ _ _ orange_begins h1
    · simp only [Bool.false_eq_true, if_false]
      rw [if_neg ho]
      exact h1

/-- Once the running text contains `<span`, folding the `//`-pieces performs
no `Diacritic` wrap and preserves the containment. -/
theorem foldlOr_of_contains : ∀ (ots : List (List Char)) (res : List Char),
    containsSub res spanTok = true →
    ots.foldl highlightOrTerm res = ots.foldl highlightOrTermNoDia res ∧
      containsSub (ots.foldl highlightOrTerm res) spanTok = true := by
  intro ots
  induction ots with
  | nil => intro res h; exact ⟨rfl, h⟩
  | cons o os ih =>
    intro res h
    have hstep := highlightOrTerm_of_contains res o h
    rw [List.foldl_cons, List.foldl_cons, ← hstep.1]
    exact ih (highlightOrTerm res o) hstep.2

/-- Once the running text contains `<span`, processing one whole term
performs no `Diacritic` wrap and preserves the containment. -/
theorem highlightTerm_of_contains (res term : List Char)
    (h : containsSub res spanTok = true) :
    highlightTerm res term = highlightTermNoDia res term ∧
      containsSub (highlightTerm res term) spanTok = true := by
  unfold highlightTerm highlightTermNoDia
  cases hb : (pyStrip term).isEmpty with
  | true => simp [hb, h]
  | false =>
    by_cases hat : (pyStrip term).headD ' ' = '@'
    · simp only [hb, Bool.false_eq_true, if_false, if_pos hat]
      exact ⟨by trivial, containsSub_pySub _ _ _ _ green_begins h⟩
    · simp only [hb, Bool.false_eq_true, if_false, if_neg hat]
      exact foldlOr_of_contains _ res h

/-- Once the running text contains `<span`, the remaining terms of a
highlight call perform no `Diacritic` wrap at all. -/
theorem foldlTerm_of_contains : ∀ (terms : List (List Char)) (res : List Char),
    containsSub res spanTok = true →
    terms.foldl highlightTerm res = terms.foldl highlightTermNoDia res := by
  intro terms
  induction terms with
  | nil => intro res _; rfl
  | cons t ts ih =>
    intro res h
    have hstep := highlightTerm_of_contains res t h
    rw [List.foldl_cons, List.foldl_cons, ← hstep.1]
    exact ih (highlightTerm res t) hstep.2

/-- Processing one `//`-piece either changes nothing or leaves a text
containing `<span`. -/
theorem highlightOrTerm_eq_or_contains : ∀ res ot : List Char,
    highlightOrTerm res ot = res ∨
      containsSub (highlightOrTerm res ot) spanTok = true := by
  intro res ot
  rcases pySub_eq_or_contains yellowOpen spanClose ot yellow_begins res with h1 | h1
  · simp only [highlightOrTerm]
    rw [h1]
    by_cases hd : diaFires res ot = true
    · rw [if_pos hd]
      rcases pySub_eq_or_contains blueOpen spanClose
          (remove_diacritics (lowerList ot)) blue_begins res with h2 | h2
      · rw [h2]
        by_cases ho : (decide (transliterate (remove_diacritics (lowerList ot)) ≠
            remove_diacritics (lowerList ot)) &&
            !((transliterate (remove_diacritics (lowerList ot))).any isAsciiAlnum)) = true
        · rw [if_pos ho]
          exact pySub_eq_or_contains orangeOpen spanClose _ orange_begins res
        · rw [if_neg ho]
          left
          rfl
      · right
        by_cases ho : (decide (transliterate (remove_diacritics (lowerList ot)) ≠
            remove_diacritics (lowerList ot)) &&
            !((transliterate (remove_diacritics (lowerList ot))).any isAsciiAlnum)) = true
        · rw [if_pos ho]
          exact containsSub_pySub _ _ _ _ orange_begins h2
        · rw [if_neg ho]
          exact h2
    · rw [if_neg hd]
      by_cases ho : (decide (transliterate (remove_diacritics (lowerList ot)) ≠
          remove_diacritics (lowerList ot)) &&
          !((transliterate (remove_diacritics (lowerList ot))).any isAsciiAlnum)) = true
      · rw [if_pos ho]
        exact pySub_eq_or_contains orangeOpen spanClose _ orange_begins res
      · rw [if_neg ho]
        left
        rfl
  · right
    have hdf : diaFires (pySub yellowOpen spanClose ot res) ot = false := by
      unfold diaFires
      rw [h1]
      simp
    simp only [highlightOrTerm, hdf, Bool.false_eq_true, if_false]
    by_cases ho : (decide (transliterate (remove_diacritics (lowerList ot)) ≠
        remove_diacritics (lowerList ot)) &&
        !((transliterate (remove_diacritics (lowerList ot))).any isAsciiAlnum)) = true
    · rw [if_pos ho]
      exact containsSub_pySub _ _ _ _ orange_begins h1
    · rw [if_neg ho]
      exact h1

/-- C8: in a highlight call, (i) the `Diacritic` wrap for a sub-term is
performed only when diacritic stripping actually changed the lower-cased
sub-term and the text produced so far contains no `<span` markup; (ii) once
the running text contains `<span` — as it does after any wrap inserts
markup — the remaining terms behave exactly as if the `Diacritic` step were
removed, so no `Diacritic` wrap is applied for that or any later sub-term;
(iii) processing a sub-term either changes nothing or leaves a text
containing `<span`, so any inserted wrap triggers the suppression. -/
theorem diacritic_wrap_first_markup_guard :
    (∀ res ot : List Char, diaFires res ot = true →
        remove_diacritics (lowerList ot) ≠ lowerList ot ∧
          containsSub res spanTok = false) ∧
    (∀ (res : List Char) (terms : List (List Char)),
        containsSub res spanTok = true →
        terms.foldl highlightTerm res = terms.foldl highlightTermNoDia res) ∧
    (∀ res ot : List Char, highlightOrTerm res ot = res ∨
        containsSub (highlightOrTerm res ot) spanTok = true) := by
  refine ⟨?_, ?_, highlightOrTerm_eq_or_contains⟩
  · intro res ot h
    unfold diaFires at h
    rw [Bool.and_eq_true, decide_eq_true_iff] at h
    exact ⟨h.1, by simpa using h.2⟩
  · exact fun res terms h => foldlTerm_of_contains terms res h

/-- Witness for C8's hypotheses at concrete inputs. -/
theorem diacritic_wrap_first_markup_guard_witness :
    (remove_diacritics (lowerList "š".data) ≠ lowerList "š".data ∧
      containsSub "x".data spanTok = false) ∧
    ["šrī".data].foldl highlightTerm "<span".data =
      ["šrī".data].foldl highlightTermNoDia "<span".data :=
  ⟨diacritic_wrap_first_markup_guard.1 "x".data "š".data (by decide),
   diacritic_wrap_first_markup_guard.2.1 "<span".data ["šrī".data] (by decide)⟩

end CALF
